import Mathlib

set_option maxHeartbeats 1000000

/-!
Shallow embedding of mlpack's regression decision-tree split machinery:
the MSE and MAD impurity gains (mse_gain.hpp, mad_gain.hpp) and the two
split finders exercised by decision_tree_regression_test.cpp.  Real-valued
data is modelled over the rationals, so every arithmetic identity proved
here is exact; the floating-point tolerances of the tests (1e-5, 1e-7)
are absorbed by exact equality.
-/

/-- Element access of an Armadillo row vector modelled as a list of
rationals.  Out-of-range reads default to 0; every verified use keeps the
indices in bounds, matching the caller contract of the C++ code. -/
def idx (l : List ℚ) (i : ℕ) : ℚ := l.getD i 0

namespace MSEGain

/-- MSEGain::Evaluate over the inclusive index range [start, stop],
mirroring mse_gain.hpp lines 40-90: weighted branch accumulates the
weight sum and weighted mean, returns 0 when the weight sum is 0, and
otherwise negates the weight-normalised sum of squared deviations; the
unweighted branch uses the arithmetic mean and divides by the range
length. -/
def EvaluateRange (UseWeights : Bool) (predictors weights : List ℚ)
    (start stop : ℕ) : ℚ :=
  if UseWeights then
    let accWeights : ℚ := ∑ i in Finset.Icc start stop, idx weights i;
    let weightedSum : ℚ :=
      ∑ i in Finset.Icc start stop, idx predictors i * idx weights i;
    if accWeights = 0 then 0
    else
      let weightedMean := weightedSum / accWeights;
      -(∑ i in Finset.Icc start stop,
          idx weights i * (idx predictors i - weightedMean) ^ 2 / accWeights)
  else
    let n : ℚ := ((stop - start + 1 : ℕ) : ℚ);
    let mean := (∑ i in Finset.Icc start stop, idx predictors i) / n;
    -(∑ i in Finset.Icc start stop, (idx predictors i - mean) ^ 2 / n)

/-- MSEGain::Evaluate over the whole predictor vector, mirroring
mse_gain.hpp lines 94-102: 0 on an empty vector, otherwise the range
form over [0, n_elem - 1]. -/
def Evaluate (UseWeights : Bool) (predictors weights : List ℚ) : ℚ :=
  if predictors.length = 0 then 0
  else EvaluateRange UseWeights predictors weights 0 (predictors.length - 1)

end MSEGain

namespace MADGain

/-- MADGain::Evaluate over the inclusive index range [start, stop],
mirroring mad_gain.hpp lines 42-96: identical structure to the MSE gain
but with the absolute deviation in place of the squared deviation. -/
def EvaluateRange (UseWeights : Bool) (predictors weights : List ℚ)
    (start stop : ℕ) : ℚ :=
  if UseWeights then
    let accWeights : ℚ := ∑ i in Finset.Icc start stop, idx weights i;
    let weightedSum : ℚ :=
      ∑ i in Finset.Icc start stop, idx predictors i * idx weights i;
    if accWeights = 0 then 0
    else
      let weightedMean := weightedSum / accWeights;
      -(∑ i in Finset.Icc start stop,
          idx weights i * |idx predictors i - weightedMean| / accWeights)
  else
    let n : ℚ := ((stop - start + 1 : ℕ) : ℚ);
    let mean := (∑ i in Finset.Icc start stop, idx predictors i) / n;
    -(∑ i in Finset.Icc start stop, |idx predictors i - mean| / n)

/-- MADGain::Evaluate over the whole predictor vector, mirroring
mad_gain.hpp lines 100-109: 0 on an empty vector, otherwise the range
form over [0, n_elem - 1]. -/
def Evaluate (UseWeights : Bool) (predictors weights : List ℚ) : ℚ :=
  if predictors.length = 0 then 0
  else EvaluateRange UseWeights predictors weights 0 (predictors.length - 1)

end MADGain

/-- Result of a split search: the returned gain, where `none` models the
DBL_MAX sentinel meaning that no split was made, together with the
contents of the split-info output vector (empty when no split was
made). -/
structure SplitResult where
  gain : Option ℚ
  splitInfo : List ℚ
  deriving DecidableEq

/-- Modelled from the spec: BestBinaryNumericSplit::SplitIfBetter.  The
file best_binary_numeric_split.hpp is not among the sources; only its
tests are, so the finder follows spec section 4.2: sort the samples by
feature value; consider every split point that separates two distinct
feature values and leaves at least minLeafSize samples on each side;
combine the two partition gains, weighted by partition size (unweighted)
or partition weight sum (weighted); keep the maximum; accept only if it
exceeds bestGain + minGainSplit, writing the separating threshold (the
midpoint of the two adjacent distinct feature values) into the
split-info output, and otherwise return the sentinel with the output
left empty.  The impurity metric is passed as the function `eval`. -/
def numericSplitIfBetter (UseWeights : Bool)
    (eval : Bool → List ℚ → List ℚ → ℚ)
    (bestGain : ℚ) (values responses weights : List ℚ)
    (minLeafSize : ℕ) (minGainSplit : ℚ) : SplitResult :=
  let n := values.length;
  let sorted := (values.zip (responses.zip weights)).insertionSort
      (fun x y => x.1 ≤ y.1);
  let sortedValues := sorted.map (fun x => x.1);
  let sortedResponses := sorted.map (fun x => x.2.1);
  let sortedWeights := sorted.map (fun x => x.2.2);
  let combinedGain : ℕ → ℚ := fun k =>
    let leftGain := eval UseWeights (sortedResponses.take k) (sortedWeights.take k);
    let rightGain := eval UseWeights (sortedResponses.drop k) (sortedWeights.drop k);
    if UseWeights then
      let totalW := sortedWeights.sum;
      if totalW = 0 then 0
      else ((sortedWeights.take k).sum * leftGain +
            (sortedWeights.drop k).sum * rightGain) / totalW
    else ((k : ℚ) * leftGain + ((n - k : ℕ) : ℚ) * rightGain) / (n : ℚ);
  let candidates := (List.range (n + 1)).filter (fun k =>
    decide (1 ≤ k ∧ minLeafSize ≤ k ∧ k + minLeafSize ≤ n ∧
      idx sortedValues (k - 1) ≠ idx sortedValues k));
  let best := candidates.foldl (fun acc k =>
    match acc with
    | none => some (combinedGain k, k)
    | some (bg, bk) =>
        if bg < combinedGain k then some (combinedGain k, k) else some (bg, bk)) none;
  match best with
  | none => ⟨none, []⟩
  | some (g, k) =>
      if bestGain + minGainSplit < g then
        ⟨some g, [(idx sortedValues (k - 1) + idx sortedValues k) / 2]⟩
      else ⟨none, []⟩

/-- Modelled from the spec: AllCategoricalSplit::SplitIfBetter.  The file
all_categorical_split.hpp is not among the sources; only its tests are,
so the finder follows spec section 4.3: bucket the samples by exact
(integer-valued) feature value; reject with the sentinel if any bucket
has fewer than minLeafSize samples or the total sample count is below
minLeafSize * numCategories; combine the per-bucket gains, weighted by
bucket size (unweighted) or bucket weight sum (weighted); accept only if
the combined gain exceeds bestGain + minGainSplit, writing numCategories
into the split-info output, and otherwise return the sentinel with the
output left empty. -/
def allCategoricalSplitIfBetter (UseWeights : Bool)
    (eval : Bool → List ℚ → List ℚ → ℚ)
    (bestGain : ℚ) (values : List ℚ) (numCategories : ℕ)
    (responses weights : List ℚ)
    (minLeafSize : ℕ) (minGainSplit : ℚ) : SplitResult :=
  let n := values.length;
  let bucket : ℕ → List (ℚ × ℚ) := fun c =>
    ((values.zip (responses.zip weights)).filter
        (fun x => decide (x.1 = (c : ℚ)))).map (fun x => x.2);
  if (∃ c ∈ List.range numCategories, (bucket c).length < minLeafSize) ∨
      n < minLeafSize * numCategories then ⟨none, []⟩
  else
    let combinedGain :=
      if UseWeights then
        let totalW := ((List.range numCategories).map
            (fun c => ((bucket c).map (fun x => x.2)).sum)).sum;
        if totalW = 0 then 0
        else (((List.range numCategories).map (fun c =>
            ((bucket c).map (fun x => x.2)).sum *
              eval UseWeights ((bucket c).map (fun x => x.1))
                ((bucket c).map (fun x => x.2)))).sum) / totalW
      else (((List.range numCategories).map (fun c =>
          (((bucket c).length : ℕ) : ℚ) *
            eval UseWeights ((bucket c).map (fun x => x.1))
              ((bucket c).map (fun x => x.2)))).sum) / (n : ℚ);
    if bestGain + minGainSplit < combinedGain then
      ⟨some combinedGain, [(numCategories : ℚ)]⟩
    else ⟨none, []⟩

/-- All responses in the inclusive index range [s, t] are identical. -/
def allSame (p : List ℚ) (s t : ℕ) : Prop :=
  ∀ i ∈ Finset.Icc s t, ∀ j ∈ Finset.Icc s t, idx p i = idx p j

lemma mse_true_eq (p w : List ℚ) (s t : ℕ) :
    MSEGain.EvaluateRange true p w s t =
      (if (∑ i in Finset.Icc s t, idx w i) = 0 then 0
       else -(∑ i in Finset.Icc s t,
          idx w i * (idx p i -
            (∑ i in Finset.Icc s t, idx p i * idx w i) /
              (∑ i in Finset.Icc s t, idx w i)) ^ 2 /
            (∑ i in Finset.Icc s t, idx w i))) := rfl

lemma mse_false_eq (p w : List ℚ) (s t : ℕ) :
    MSEGain.EvaluateRange false p w s t =
      -(∑ i in Finset.Icc s t,
          (idx p i -
            (∑ i in Finset.Icc s t, idx p i) / ((t - s + 1 : ℕ) : ℚ)) ^ 2 /
            ((t - s + 1 : ℕ) : ℚ)) := rfl

lemma mad_true_eq (p w : List ℚ) (s t : ℕ) :
    MADGain.EvaluateRange true p w s t =
      (if (∑ i in Finset.Icc s t, idx w i) = 0 then 0
       else -(∑ i in Finset.Icc s t,
          idx w i * |idx p i -
            (∑ i in Finset.Icc s t, idx p i * idx w i) /
              (∑ i in Finset.Icc s t, idx w i)| /
            (∑ i in Finset.Icc s t, idx w i))) := rfl

lemma mad_false_eq (p w : List ℚ) (s t : ℕ) :
    MADGain.EvaluateRange false p w s t =
      -(∑ i in Finset.Icc s t,
          |idx p i -
            (∑ i in Finset.Icc s t, idx p i) / ((t - s + 1 : ℕ) : ℚ)| /
            ((t - s + 1 : ℕ) : ℚ)) := rfl

lemma Icc_zero_pred (n : ℕ) (hn : n ≠ 0) : Finset.Icc 0 (n - 1) = Finset.range n := by
  ext i
  simp only [Finset.mem_Icc, Finset.mem_range]
  omega

lemma sum_idx_map (f : ℚ → ℚ) (l : List ℚ) :
    ∑ i in Finset.range l.length, f (idx l i) = (l.map f).sum := by
  induction l with
  | nil => simp
  | cons x xs ih =>
      rw [List.length_cons, Finset.sum_range_succ']
      simp only [idx, List.getD_cons_succ, List.getD_cons_zero] at *
      rw [ih, List.map_cons, List.sum_cons, add_comm]

lemma count_two_vals (l : List ℚ) (a b : ℚ) (hab : a ≠ b)
    (h : ∀ x ∈ l, x = a ∨ x = b) : l.count a + l.count b = l.length := by
  induction l with
  | nil => simp
  | cons x xs ih =>
      have hx := h x (List.mem_cons_self x xs)
      have hxs : ∀ y ∈ xs, y = a ∨ y = b := fun y hy => h y (List.mem_cons_of_mem x hy)
      have hih := ih hxs
      rcases hx with hx | hx
      · subst hx
        rw [List.count_cons_self, List.count_cons_of_ne (Ne.symm hab), List.length_cons]
        omega
      · subst hx
        rw [List.count_cons_self, List.count_cons_of_ne hab, List.length_cons]
        omega

lemma map_sum_two_vals (l : List ℚ) (a b : ℚ) (hab : a ≠ b)
    (h : ∀ x ∈ l, x = a ∨ x = b) (f : ℚ → ℚ) :
    (l.map f).sum = (l.count a : ℚ) * f a + (l.count b : ℚ) * f b := by
  induction l with
  | nil => simp
  | cons x xs ih =>
      have hx := h x (List.mem_cons_self x xs)
      have hxs : ∀ y ∈ xs, y = a ∨ y = b := fun y hy => h y (List.mem_cons_of_mem x hy)
      rcases hx with hx | hx
      · subst hx
        rw [List.map_cons, List.sum_cons, ih hxs, List.count_cons_self,
          List.count_cons_of_ne (Ne.symm hab)]
        push_cast
        ring
      · subst hx
        rw [List.map_cons, List.sum_cons, ih hxs, List.count_cons_self,
          List.count_cons_of_ne hab]
        push_cast
        ring

section Core

variable (d : ℚ → ℚ)

lemma core_const_weight (p w : List ℚ) (c : ℚ) (hc : c ≠ 0) (s t : ℕ)
    (hw : ∀ i ∈ Finset.Icc s t, idx w i = c) :
    (if (∑ i in Finset.Icc s t, idx w i) = 0 then 0
     else -(∑ i in Finset.Icc s t,
        idx w i * d (idx p i -
          (∑ i in Finset.Icc s t, idx p i * idx w i) /
            (∑ i in Finset.Icc s t, idx w i)) /
          (∑ i in Finset.Icc s t, idx w i))) =
    -(∑ i in Finset.Icc s t,
        d (idx p i - (∑ i in Finset.Icc s t, idx p i) / ((t - s + 1 : ℕ) : ℚ)) /
          ((t - s + 1 : ℕ) : ℚ)) := by
  by_cases hst : s ≤ t
  · have hN0 : (0 : ℚ) < ((t - s + 1 : ℕ) : ℚ) := by
      exact_mod_cast Nat.succ_pos (t - s)
    have hacc : (∑ i in Finset.Icc s t, idx w i) = ((t - s + 1 : ℕ) : ℚ) * c := by
      rw [Finset.sum_congr rfl hw, Finset.sum_const, Nat.card_Icc, nsmul_eq_mul]
      congr 1
      norm_cast
      omega
    have hA : (∑ i in Finset.Icc s t, idx w i) ≠ 0 := by
      rw [hacc]; exact mul_ne_zero (ne_of_gt hN0) hc
    have hWS : (∑ i in Finset.Icc s t, idx p i * idx w i) =
        (∑ i in Finset.Icc s t, idx p i) * c := by
      have h1 : (∑ i in Finset.Icc s t, idx p i * idx w i) =
          ∑ i in Finset.Icc s t, idx p i * c :=
        Finset.sum_congr rfl fun i hi => by rw [hw i hi]
      rw [h1, ← Finset.sum_mul]
    rw [if_neg hA]
    congr 1
    refine Finset.sum_congr rfl fun i hi => ?_
    rw [hw i hi, hWS, hacc, mul_div_mul_right _ _ hc, mul_comm c,
      mul_div_mul_right _ _ hc]
  · have hS : Finset.Icc s t = ∅ := Finset.Icc_eq_empty hst
    simp [hS]

lemma core_false_nonpos (hd0 : ∀ y, 0 ≤ d y) (p : List ℚ) (s t : ℕ) :
    -(∑ i in Finset.Icc s t,
        d (idx p i - (∑ i in Finset.Icc s t, idx p i) / ((t - s + 1 : ℕ) : ℚ)) /
          ((t - s + 1 : ℕ) : ℚ)) ≤ 0 := by
  have h : 0 ≤ ∑ i in Finset.Icc s t,
      d (idx p i - (∑ i in Finset.Icc s t, idx p i) / ((t - s + 1 : ℕ) : ℚ)) /
        ((t - s + 1 : ℕ) : ℚ) :=
    Finset.sum_nonneg fun i _ => div_nonneg (hd0 _) (Nat.cast_nonneg _)
  linarith

lemma core_false_zero (hd00 : d 0 = 0) (p : List ℚ) (s t : ℕ) (hst : s ≤ t)
    (hsame : allSame p s t) :
    -(∑ i in Finset.Icc s t,
        d (idx p i - (∑ i in Finset.Icc s t, idx p i) / ((t - s + 1 : ℕ) : ℚ)) /
          ((t - s + 1 : ℕ) : ℚ)) = 0 := by
  have hs : s ∈ Finset.Icc s t := by simp [Finset.mem_Icc]; omega
  have hv : ∀ i ∈ Finset.Icc s t, idx p i = idx p s := fun i hi => hsame i hi s hs
  have hNne : ((t - s + 1 : ℕ) : ℚ) ≠ 0 := Nat.cast_ne_zero.mpr (by omega)
  have hsum : (∑ i in Finset.Icc s t, idx p i) = ((t - s + 1 : ℕ) : ℚ) * idx p s := by
    rw [Finset.sum_congr rfl hv, Finset.sum_const, Nat.card_Icc, nsmul_eq_mul]
    congr 1
    norm_cast
    omega
  have hmean : (∑ i in Finset.Icc s t, idx p i) / ((t - s + 1 : ℕ) : ℚ) = idx p s := by
    rw [hsum, mul_comm, mul_div_assoc, div_self hNne, mul_one]
  have hterm : ∀ i ∈ Finset.Icc s t,
      d (idx p i - (∑ j in Finset.Icc s t, idx p j) / ((t - s + 1 : ℕ) : ℚ)) /
        ((t - s + 1 : ℕ) : ℚ) = 0 := fun i hi => by
    rw [hmean, hv i hi, sub_self, hd00, zero_div]
  rw [Finset.sum_congr rfl hterm, Finset.sum_const, smul_zero, neg_zero]

lemma core_false_neg (hd0 : ∀ y, 0 ≤ d y) (hdpos : ∀ y, y ≠ 0 → 0 < d y)
    (p : List ℚ) (s t : ℕ) (hne : ¬ allSame p s t) :
    -(∑ i in Finset.Icc s t,
        d (idx p i - (∑ i in Finset.Icc s t, idx p i) / ((t - s + 1 : ℕ) : ℚ)) /
          ((t - s + 1 : ℕ) : ℚ)) < 0 := by
  have hN0 : (0 : ℚ) < ((t - s + 1 : ℕ) : ℚ) := by
    exact_mod_cast Nat.succ_pos (t - s)
  rw [allSame] at hne
  push_neg at hne
  obtain ⟨i0, hi0, j0, hj0, hij⟩ := hne
  have hk : ∃ k ∈ Finset.Icc s t,
      idx p k ≠ (∑ i in Finset.Icc s t, idx p i) / ((t - s + 1 : ℕ) : ℚ) := by
    by_contra hcon
    push_neg at hcon
    exact hij ((hcon i0 hi0).trans (hcon j0 hj0).symm)
  obtain ⟨k, hkmem, hkne⟩ := hk
  have hpos : 0 < ∑ i in Finset.Icc s t,
      d (idx p i - (∑ i in Finset.Icc s t, idx p i) / ((t - s + 1 : ℕ) : ℚ)) /
        ((t - s + 1 : ℕ) : ℚ) := by
    refine Finset.sum_pos' (fun i _ => div_nonneg (hd0 _) (le_of_lt hN0)) ⟨k, hkmem, ?_⟩
    exact div_pos (hdpos _ (sub_ne_zero.mpr hkne)) hN0
  linarith

lemma core_true_nonpos (hd0 : ∀ y, 0 ≤ d y) (p w : List ℚ) (s t : ℕ)
    (hw : ∀ i ∈ Finset.Icc s t, 0 ≤ idx w i) :
    (if (∑ i in Finset.Icc s t, idx w i) = 0 then 0
     else -(∑ i in Finset.Icc s t,
        idx w i * d (idx p i -
          (∑ i in Finset.Icc s t, idx p i * idx w i) /
            (∑ i in Finset.Icc s t, idx w i)) /
          (∑ i in Finset.Icc s t, idx w i))) ≤ 0 := by
  split_ifs with hA
  · exact le_refl 0
  · have hApos : 0 < ∑ i in Finset.Icc s t, idx w i :=
      lt_of_le_of_ne (Finset.sum_nonneg hw) (Ne.symm hA)
    have h : 0 ≤ ∑ i in Finset.Icc s t,
        idx w i * d (idx p i -
          (∑ i in Finset.Icc s t, idx p i * idx w i) /
            (∑ i in Finset.Icc s t, idx w i)) /
          (∑ i in Finset.Icc s t, idx w i) :=
      Finset.sum_nonneg fun i hi =>
        div_nonneg (mul_nonneg (hw i hi) (hd0 _)) (le_of_lt hApos)
    linarith

lemma core_true_zero (hd00 : d 0 = 0) (p w : List ℚ) (s t : ℕ) (hst : s ≤ t)
    (hsame : allSame p s t) :
    (if (∑ i in Finset.Icc s t, idx w i) = 0 then 0
     else -(∑ i in Finset.Icc s t,
        idx w i * d (idx p i -
          (∑ i in Finset.Icc s t, idx p i * idx w i) /
            (∑ i in Finset.Icc s t, idx w i)) /
          (∑ i in Finset.Icc s t, idx w i))) = 0 := by
  split_ifs with hA
  · rfl
  · have hs : s ∈ Finset.Icc s t := by simp [Finset.mem_Icc]; omega
    have hv : ∀ i ∈ Finset.Icc s t, idx p i = idx p s := fun i hi => hsame i hi s hs
    have hWS : (∑ i in Finset.Icc s t, idx p i * idx w i) =
        idx p s * (∑ i in Finset.Icc s t, idx w i) := by
      rw [Finset.mul_sum]
      exact Finset.sum_congr rfl fun i hi => by rw [hv i hi]
    have hmean : (∑ i in Finset.Icc s t, idx p i * idx w i) /
        (∑ i in Finset.Icc s t, idx w i) = idx p s := by
      rw [hWS, mul_div_assoc, div_self hA, mul_one]
    have hterm : ∀ i ∈ Finset.Icc s t,
        idx w i * d (idx p i -
          (∑ j in Finset.Icc s t, idx p j * idx w j) /
            (∑ j in Finset.Icc s t, idx w j)) /
          (∑ j in Finset.Icc s t, idx w j) = 0 := fun i hi => by
      rw [hmean, hv i hi, sub_self, hd00, mul_zero, zero_div]
    rw [Finset.sum_congr rfl hterm, Finset.sum_const, smul_zero, neg_zero]

lemma core_true_neg (hd0 : ∀ y, 0 ≤ d y) (hdpos : ∀ y, y ≠ 0 → 0 < d y)
    (p w : List ℚ) (s t : ℕ) (hst : s ≤ t)
    (hwpos : ∀ i ∈ Finset.Icc s t, 0 < idx w i) (hne : ¬ allSame p s t) :
    (if (∑ i in Finset.Icc s t, idx w i) = 0 then 0
     else -(∑ i in Finset.Icc s t,
        idx w i * d (idx p i -
          (∑ i in Finset.Icc s t, idx p i * idx w i) /
            (∑ i in Finset.Icc s t, idx w i)) /
          (∑ i in Finset.Icc s t, idx w i))) < 0 := by
  have hs : s ∈ Finset.Icc s t := by simp [Finset.mem_Icc]; omega
  have hApos : 0 < ∑ i in Finset.Icc s t, idx w i :=
    Finset.sum_pos hwpos ⟨s, hs⟩
  rw [if_neg (ne_of_gt hApos)]
  rw [allSame] at hne
  push_neg at hne
  obtain ⟨i0, hi0, j0, hj0, hij⟩ := hne
  have hk : ∃ k ∈ Finset.Icc s t,
      idx p k ≠ (∑ i in Finset.Icc s t, idx p i * idx w i) /
        (∑ i in Finset.Icc s t, idx w i) := by
    by_contra hcon
    push_neg at hcon
    exact hij ((hcon i0 hi0).trans (hcon j0 hj0).symm)
  obtain ⟨k, hkmem, hkne⟩ := hk
  have hpos : 0 < ∑ i in Finset.Icc s t,
      idx w i * d (idx p i -
        (∑ j in Finset.Icc s t, idx p j * idx w j) /
          (∑ j in Finset.Icc s t, idx w j)) /
        (∑ j in Finset.Icc s t, idx w j) := by
    refine Finset.sum_pos' (fun i hi =>
      div_nonneg (mul_nonneg (le_of_lt (hwpos i hi)) (hd0 _)) (le_of_lt hApos))
      ⟨k, hkmem, ?_⟩
    exact div_pos (mul_pos (hwpos k hkmem) (hdpos _ (sub_ne_zero.mpr hkne))) hApos
  linarith

lemma core_evenSplit (hdm : d (-1) = 1) (hdp : d 1 = 1)
    (p : List ℚ) (m : ℕ) (a : ℚ) (hm : 0 < m)
    (hlen : p.length = 2 * m) (hcount : p.count a = m)
    (hvals : ∀ x ∈ p, x = a ∨ x = a + 2) :
    -(∑ i in Finset.Icc 0 (p.length - 1),
        d (idx p i - (∑ i in Finset.Icc 0 (p.length - 1), idx p i) /
          ((p.length - 1 - 0 + 1 : ℕ) : ℚ)) /
          ((p.length - 1 - 0 + 1 : ℕ) : ℚ)) = -1 := by
  have hne : a ≠ a + 2 := by intro h; linarith
  have hlen0 : p.length ≠ 0 := by omega
  have hNcast : ((p.length - 1 - 0 + 1 : ℕ) : ℚ) = ((2 * m : ℕ) : ℚ) := by
    have h : p.length - 1 - 0 + 1 = 2 * m := by omega
    rw [h]
  have hden : ((2 * m : ℕ) : ℚ) ≠ 0 := Nat.cast_ne_zero.mpr (by omega)
  have hcount2 : p.count (a + 2) = m := by
    have h := count_two_vals p a (a + 2) hne hvals
    omega
  have hIcc := Icc_zero_pred p.length hlen0
  have hsum : (∑ i in Finset.Icc 0 (p.length - 1), idx p i) =
      (m : ℚ) * a + (m : ℚ) * (a + 2) := by
    rw [hIcc,
      (sum_idx_map (fun x => x) p :
        (∑ i in Finset.range p.length, idx p i) = (p.map fun x => x).sum),
      map_sum_two_vals p a (a + 2) hne hvals (fun x => x), hcount, hcount2]
  have hmean : (∑ i in Finset.Icc 0 (p.length - 1), idx p i) /
      ((p.length - 1 - 0 + 1 : ℕ) : ℚ) = a + 1 := by
    rw [hsum, hNcast, div_eq_iff hden]
    push_cast [hlen]
    ring
  rw [hmean, hNcast, hIcc,
    (sum_idx_map (fun x => d (x - (a + 1)) / ((2 * m : ℕ) : ℚ)) p :
      (∑ i in Finset.range p.length, d (idx p i - (a + 1)) / ((2 * m : ℕ) : ℚ)) = _),
    map_sum_two_vals p a (a + 2) hne hvals _, hcount, hcount2]
  have e1 : a - (a + 1) = -1 := by ring
  have e2 : a + 2 - (a + 1) = 1 := by ring
  simp only [e1, e2, hdm, hdp]
  field_simp
  ring

end Core

lemma mse_const_weight (p w : List ℚ) (c : ℚ) (hc : c ≠ 0) (s t : ℕ)
    (hw : ∀ i ∈ Finset.Icc s t, idx w i = c) :
    MSEGain.EvaluateRange true p w s t = MSEGain.EvaluateRange false p w s t := by
  rw [mse_true_eq, mse_false_eq]
  exact core_const_weight (fun y => y ^ 2) p w c hc s t hw

lemma mad_const_weight (p w : List ℚ) (c : ℚ) (hc : c ≠ 0) (s t : ℕ)
    (hw : ∀ i ∈ Finset.Icc s t, idx w i = c) :
    MADGain.EvaluateRange true p w s t = MADGain.EvaluateRange false p w s t := by
  rw [mad_true_eq, mad_false_eq]
  exact core_const_weight (fun y => |y|) p w c hc s t hw

/-- Claim C1 (amended): for n samples evenly split between two values a and
a + 2 (half the responses equal to a, half equal to a + 2),
MADGain::Evaluate returns -1.0 exactly, independent of n, both in the
weighted variant with all weights 1 and in the unweighted variant.  (The
spec sentence asserts -0.5; the code and its own test MADGainEvenSplit
give -1.0, the mean absolute deviation of such a sample being exactly
1.) -/
theorem madGain_evenSplit_amended (p w : List ℚ) (m : ℕ) (a : ℚ) (hm : 0 < m)
    (hlen : p.length = 2 * m) (hcount : p.count a = m)
    (hvals : ∀ x ∈ p, x = a ∨ x = a + 2)
    (hw : ∀ i, i < p.length → idx w i = 1) :
    MADGain.Evaluate false p w = -1 ∧ MADGain.Evaluate true p w = -1 := by
  have hlen0 : p.length ≠ 0 := by omega
  have hw' : ∀ i ∈ Finset.Icc 0 (p.length - 1), idx w i = 1 := fun i hi => by
    apply hw
    have h := Finset.mem_Icc.mp hi
    omega
  have hrange : MADGain.EvaluateRange false p w 0 (p.length - 1) = -1 := by
    rw [mad_false_eq]
    exact core_evenSplit (fun y => |y|) (by norm_num) (by norm_num)
      p m a hm hlen hcount hvals
  constructor
  · simp only [MADGain.Evaluate]
    rw [if_neg hlen0]
    exact hrange
  · simp only [MADGain.Evaluate]
    rw [if_neg hlen0, mad_const_weight p w 1 one_ne_zero 0 (p.length - 1) hw']
    exact hrange

/-- Claim C1 witness: the amended theorem applied to the four responses
3, 5, 3, 5 with unit weights. -/
theorem madGain_evenSplit_amended_witness :
    MADGain.Evaluate false [3, 5, 3, 5] [1, 1, 1, 1] = -1 ∧
    MADGain.Evaluate true [3, 5, 3, 5] [1, 1, 1, 1] = -1 :=
  madGain_evenSplit_amended [3, 5, 3, 5] [1, 1, 1, 1] 2 3 (by norm_num)
    (by norm_num) (by norm_num) (by norm_num [idx]) (by decide)

/-- Claim C1 counterexample: on the four responses 3, 5, 3, 5 (evenly
split between a = 3 and a + 2 = 5, all weights 1) neither the unweighted
nor the weighted MADGain::Evaluate is within 1e-7 of -0.5: both equal
-1. -/
theorem madGain_evenSplit_spec_counterexample :
    ¬ (|MADGain.Evaluate false [3, 5, 3, 5] [1, 1, 1, 1] - (-(1/2))| ≤ 1/10000000) ∧
    ¬ (|MADGain.Evaluate true [3, 5, 3, 5] [1, 1, 1, 1] - (-(1/2))| ≤ 1/10000000) := by
  constructor <;>
    norm_num [MADGain.Evaluate, MADGain.EvaluateRange, idx,
      Finset.sum_Icc_succ_top, abs_of_nonneg]

/-- Claim C2: for 10 responses where 5 equal 0.0 with weight 0.3 each and
5 equal 1.0 with weight 0.7 each, the weighted MSEGain::Evaluate returns
exactly -0.21 and the weighted MADGain::Evaluate returns exactly
-0.42. -/
theorem gains_weighted_concrete :
    MSEGain.Evaluate true
      [0, 0, 0, 0, 0, 1, 1, 1, 1, 1]
      [3/10, 3/10, 3/10, 3/10, 3/10, 7/10, 7/10, 7/10, 7/10, 7/10] = -21/100 ∧
    MADGain.Evaluate true
      [0, 0, 0, 0, 0, 1, 1, 1, 1, 1]
      [3/10, 3/10, 3/10, 3/10, 3/10, 7/10, 7/10, 7/10, 7/10, 7/10] = -42/100 := by
  constructor
  · norm_num [MSEGain.Evaluate, MSEGain.EvaluateRange, idx, Finset.sum_Icc_succ_top]
  · norm_num [MADGain.Evaluate, MADGain.EvaluateRange, idx, Finset.sum_Icc_succ_top,
      abs_of_nonneg]

/-- Claim C3: for n samples evenly split between two values a and a + 2
(half the responses equal to a, half equal to a + 2), MSEGain::Evaluate
returns -1.0 exactly, independent of n, both in the weighted variant with
all weights 1 and in the unweighted variant. -/
theorem mseGain_evenSplit (p w : List ℚ) (m : ℕ) (a : ℚ) (hm : 0 < m)
    (hlen : p.length = 2 * m) (hcount : p.count a = m)
    (hvals : ∀ x ∈ p, x = a ∨ x = a + 2)
    (hw : ∀ i, i < p.length → idx w i = 1) :
    MSEGain.Evaluate false p w = -1 ∧ MSEGain.Evaluate true p w = -1 := by
  have hlen0 : p.length ≠ 0 := by omega
  have hw' : ∀ i ∈ Finset.Icc 0 (p.length - 1), idx w i = 1 := fun i hi => by
    apply hw
    have h := Finset.mem_Icc.mp hi
    omega
  have hrange : MSEGain.EvaluateRange false p w 0 (p.length - 1) = -1 := by
    rw [mse_false_eq]
    exact core_evenSplit (fun y => y ^ 2) (by norm_num) (by norm_num)
      p m a hm hlen hcount hvals
  constructor
  · simp only [MSEGain.Evaluate]
    rw [if_neg hlen0]
    exact hrange
  · simp only [MSEGain.Evaluate]
    rw [if_neg hlen0, mse_const_weight p w 1 one_ne_zero 0 (p.length - 1) hw']
    exact hrange

/-- Claim C3 witness: the theorem applied to the four responses 3, 5, 3, 5
with unit weights. -/
theorem mseGain_evenSplit_witness :
    MSEGain.Evaluate false [3, 5, 3, 5] [1, 1, 1, 1] = -1 ∧
    MSEGain.Evaluate true [3, 5, 3, 5] [1, 1, 1, 1] = -1 :=
  mseGain_evenSplit [3, 5, 3, 5] [1, 1, 1, 1] 2 3 (by norm_num)
    (by norm_num) (by norm_num) (by norm_num [idx]) (by decide)

/-- Claim C4 (amended): for every non-empty in-bounds response range, the
unweighted MSEGain::Evaluate and MADGain::Evaluate are at most 0, equal
to 0 when all responses in the range are identical, and strictly
negative otherwise; the weighted variants are at most 0 provided the
weights in the range are non-negative, equal to 0 whenever all responses
in the range are identical (for any weights), and strictly negative on
non-identical responses provided every weight in the range is strictly
positive.  (The claim as stated, quantified over every weight vector,
fails: a negative weight can make the weighted gain positive, and a zero
weight can make it 0 on non-identical responses.) -/
theorem gain_purity_bounds (p w : List ℚ) (s t : ℕ) (hst : s ≤ t)
    (ht : t < p.length) :
    (MSEGain.EvaluateRange false p w s t ≤ 0 ∧
     MADGain.EvaluateRange false p w s t ≤ 0) ∧
    (allSame p s t →
      MSEGain.EvaluateRange false p w s t = 0 ∧
      MADGain.EvaluateRange false p w s t = 0) ∧
    (¬ allSame p s t →
      MSEGain.EvaluateRange false p w s t < 0 ∧
      MADGain.EvaluateRange false p w s t < 0) ∧
    ((∀ i ∈ Finset.Icc s t, 0 ≤ idx w i) →
      MSEGain.EvaluateRange true p w s t ≤ 0 ∧
      MADGain.EvaluateRange true p w s t ≤ 0) ∧
    (allSame p s t →
      MSEGain.EvaluateRange true p w s t = 0 ∧
      MADGain.EvaluateRange true p w s t = 0) ∧
    ((∀ i ∈ Finset.Icc s t, 0 < idx w i) → ¬ allSame p s t →
      MSEGain.EvaluateRange true p w s t < 0 ∧
      MADGain.EvaluateRange true p w s t < 0) := by
  have hsqnn : ∀ y : ℚ, 0 ≤ y ^ 2 := fun y => sq_nonneg y
  have habsnn : ∀ y : ℚ, 0 ≤ |y| := fun y => abs_nonneg y
  have hsq0 : (0 : ℚ) ^ 2 = 0 := by norm_num
  have habs0 : |(0 : ℚ)| = 0 := abs_zero
  have hsqp : ∀ y : ℚ, y ≠ 0 → 0 < y ^ 2 := fun y hy => by positivity
  have habsp : ∀ y : ℚ, y ≠ 0 → 0 < |y| := fun y hy => abs_pos.mpr hy
  refine ⟨⟨?_, ?_⟩, fun hsame => ⟨?_, ?_⟩, fun hne => ⟨?_, ?_⟩,
    fun hw0 => ⟨?_, ?_⟩, fun hsame => ⟨?_, ?_⟩, fun hwp hne => ⟨?_, ?_⟩⟩
  · rw [mse_false_eq]
    exact core_false_nonpos (fun y => y ^ 2) hsqnn p s t
  · rw [mad_false_eq]
    exact core_false_nonpos (fun y => |y|) habsnn p s t
  · rw [mse_false_eq]
    exact core_false_zero (fun y => y ^ 2) hsq0 p s t hst hsame
  · rw [mad_false_eq]
    exact core_false_zero (fun y => |y|) habs0 p s t hst hsame
  · rw [mse_false_eq]
    exact core_false_neg (fun y => y ^ 2) hsqnn hsqp p s t hne
  · rw [mad_false_eq]
    exact core_false_neg (fun y => |y|) habsnn habsp p s t hne
  · rw [mse_true_eq]
    exact core_true_nonpos (fun y => y ^ 2) hsqnn p w s t hw0
  · rw [mad_true_eq]
    exact core_true_nonpos (fun y => |y|) habsnn p w s t hw0
  · rw [mse_true_eq]
    exact core_true_zero (fun y => y ^ 2) hsq0 p w s t hst hsame
  · rw [mad_true_eq]
    exact core_true_zero (fun y => |y|) habs0 p w s t hst hsame
  · rw [mse_true_eq]
    exact core_true_neg (fun y => y ^ 2) hsqnn hsqp p w s t hst hwp hne
  · rw [mad_true_eq]
    exact core_true_neg (fun y => |y|) habsnn habsp p w s t hst hwp hne

/-- Claim C4 witness: the amended theorem applied to the responses 1, 2
with weights 1, 1 over the range [0, 1]. -/
theorem gain_purity_bounds_witness :
    (MSEGain.EvaluateRange false [1, 2] [1, 1] 0 1 ≤ 0 ∧
     MADGain.EvaluateRange false [1, 2] [1, 1] 0 1 ≤ 0) ∧
    (allSame [1, 2] 0 1 →
      MSEGain.EvaluateRange false [1, 2] [1, 1] 0 1 = 0 ∧
      MADGain.EvaluateRange false [1, 2] [1, 1] 0 1 = 0) ∧
    (¬ allSame [1, 2] 0 1 →
      MSEGain.EvaluateRange false [1, 2] [1, 1] 0 1 < 0 ∧
      MADGain.EvaluateRange false [1, 2] [1, 1] 0 1 < 0) ∧
    ((∀ i ∈ Finset.Icc 0 1, 0 ≤ idx [1, 1] i) →
      MSEGain.EvaluateRange true [1, 2] [1, 1] 0 1 ≤ 0 ∧
      MADGain.EvaluateRange true [1, 2] [1, 1] 0 1 ≤ 0) ∧
    (allSame [1, 2] 0 1 →
      MSEGain.EvaluateRange true [1, 2] [1, 1] 0 1 = 0 ∧
      MADGain.EvaluateRange true [1, 2] [1, 1] 0 1 = 0) ∧
    ((∀ i ∈ Finset.Icc 0 1, 0 < idx [1, 1] i) → ¬ allSame [1, 2] 0 1 →
      MSEGain.EvaluateRange true [1, 2] [1, 1] 0 1 < 0 ∧
      MADGain.EvaluateRange true [1, 2] [1, 1] 0 1 < 0) :=
  gain_purity_bounds [1, 2] [1, 1] 0 1 (by norm_num) (by norm_num)

/-- Claim C4 counterexample: with responses 0, 1 the weighted
MSEGain::Evaluate is strictly positive under the weights -1, 2, and is 0
under the non-negative weights 1, 0 although the responses in the range
are not all identical. -/
theorem gain_purity_bounds_counterexample :
    0 < MSEGain.EvaluateRange true [0, 1] [-1, 2] 0 1 ∧
    ¬ allSame [0, 1] 0 1 ∧
    MSEGain.EvaluateRange true [0, 1] [1, 0] 0 1 = 0 := by
  refine ⟨?_, ?_, ?_⟩
  · norm_num [MSEGain.EvaluateRange, idx, Finset.sum_Icc_succ_top]
  · intro hsame
    have h := hsame 0 (by decide) 1 (by decide)
    norm_num [idx] at h
  · norm_num [MSEGain.EvaluateRange, idx, Finset.sum_Icc_succ_top]

/-- Claim C5: for an empty response set the full-range Evaluate of both
MSEGain and MADGain returns gain 0, weighted or unweighted, regardless of
the weights argument. -/
theorem gains_empty_responses (UseWeights : Bool) (w : List ℚ) :
    MSEGain.Evaluate UseWeights [] w = 0 ∧
    MADGain.Evaluate UseWeights [] w = 0 :=
  ⟨rfl, rfl⟩

/-- Claim C6: in the weighted variant, when the sum of the weights over
the evaluated range is exactly zero, both MSEGain::Evaluate and
MADGain::Evaluate return gain 0. -/
theorem gains_zero_weight_sum (p w : List ℚ) (s t : ℕ)
    (h : (∑ i in Finset.Icc s t, idx w i) = 0) :
    MSEGain.EvaluateRange true p w s t = 0 ∧
    MADGain.EvaluateRange true p w s t = 0 := by
  rw [mse_true_eq, mad_true_eq, if_pos h, if_pos h]
  exact ⟨rfl, rfl⟩

/-- Claim C6 witness: the theorem applied to the responses 1, 2 with the
all-zero weights over the range [0, 1]. -/
theorem gains_zero_weight_sum_witness :
    MSEGain.EvaluateRange true [1, 2] [0, 0] 0 1 = 0 ∧
    MADGain.EvaluateRange true [1, 2] [0, 0] 0 1 = 0 :=
  gains_zero_weight_sum [1, 2] [0, 0] 0 1
    (by norm_num [idx, Finset.sum_Icc_succ_top])

/-- Claim C7: for every non-empty response vector and every constant
nonzero weight assignment, the weighted full-range Evaluate of each
impurity metric equals the unweighted full-range Evaluate of the same
metric on the same responses. -/
theorem gains_const_weight_eq (p w : List ℚ) (c : ℚ) (hp : p ≠ [])
    (hc : c ≠ 0) (hw : ∀ i, i < p.length → idx w i = c) :
    MSEGain.Evaluate true p w = MSEGain.Evaluate false p w ∧
    MADGain.Evaluate true p w = MADGain.Evaluate false p w := by
  have hlen0 : p.length ≠ 0 := fun h => hp (List.length_eq_zero.mp h)
  have hw' : ∀ i ∈ Finset.Icc 0 (p.length - 1), idx w i = c := fun i hi => by
    apply hw
    have h := Finset.mem_Icc.mp hi
    omega
  constructor
  · simp only [MSEGain.Evaluate]
    rw [if_neg hlen0, if_neg hlen0]
    exact mse_const_weight p w c hc 0 (p.length - 1) hw'
  · simp only [MADGain.Evaluate]
    rw [if_neg hlen0, if_neg hlen0]
    exact mad_const_weight p w c hc 0 (p.length - 1) hw'

/-- Claim C7 witness: the theorem applied to the responses 1, 2 with both
weights equal to 3. -/
theorem gains_const_weight_eq_witness :
    MSEGain.Evaluate true [1, 2] [3, 3] = MSEGain.Evaluate false [1, 2] [3, 3] ∧
    MADGain.Evaluate true [1, 2] [3, 3] = MADGain.Evaluate false [1, 2] [3, 3] :=
  gains_const_weight_eq [1, 2] [3, 3] 3 (by decide) (by norm_num) (by decide)

/-- Claim C8: whenever fewer than 2 * minLeafSize samples are available, so
that no partition can give both children at least minLeafSize samples,
the numeric split finder returns the no-split sentinel and leaves the
split-info output empty, for any metric and either weighting variant. -/
theorem numericSplit_minSamples (UseWeights : Bool)
    (eval : Bool → List ℚ → List ℚ → ℚ) (bestGain : ℚ)
    (values responses weights : List ℚ) (minLeafSize : ℕ) (minGainSplit : ℚ)
    (h : values.length < 2 * minLeafSize) :
    numericSplitIfBetter UseWeights eval bestGain values responses weights
      minLeafSize minGainSplit = ⟨none, []⟩ := by
  have hfil : ∀ (sv : List ℚ), (List.range (values.length + 1)).filter (fun k =>
      decide (1 ≤ k ∧ minLeafSize ≤ k ∧ k + minLeafSize ≤ values.length ∧
        idx sv (k - 1) ≠ idx sv k)) = [] := by
    intro sv
    rw [List.filter_eq_nil_iff]
    intro k hk
    simp only [decide_eq_true_eq]
    rintro ⟨h1, h2, h3, h4⟩
    omega
  simp only [numericSplitIfBetter]
  rw [hfil]
  rfl

/-- Claim C8 witness: the theorem applied to the data of the test
BestBinaryNumericSplitMinSamplesTest, 11 points with minLeafSize 8 under
the MSE gain. -/
theorem numericSplit_minSamples_witness :
    numericSplitIfBetter false (fun u r w' => MSEGain.Evaluate u r w')
      (MSEGain.Evaluate false [0, 0, 0, 0, 0, 1, 1, 1, 1, 1, 1]
        [1, 1, 1, 1, 1, 1, 1, 1, 1, 1, 1])
      [0, 1/10, 2/10, 3/10, 4/10, 5/10, 6/10, 7/10, 8/10, 9/10, 1]
      [0, 0, 0, 0, 0, 1, 1, 1, 1, 1, 1] [1, 1, 1, 1, 1, 1, 1, 1, 1, 1, 1]
      8 (1/10000000) = ⟨none, []⟩ :=
  numericSplit_minSamples false (fun u r w' => MSEGain.Evaluate u r w')
    (MSEGain.Evaluate false [0, 0, 0, 0, 0, 1, 1, 1, 1, 1, 1]
      [1, 1, 1, 1, 1, 1, 1, 1, 1, 1, 1])
    [0, 1/10, 2/10, 3/10, 4/10, 5/10, 6/10, 7/10, 8/10, 9/10, 1]
    [0, 0, 0, 0, 0, 1, 1, 1, 1, 1, 1] [1, 1, 1, 1, 1, 1, 1, 1, 1, 1, 1]
    8 (1/10000000) (by norm_num)

lemma catSplit_concrete :
    allCategoricalSplitIfBetter false (fun u r w' => MSEGain.Evaluate u r w')
      (MSEGain.Evaluate false
        [10, 10, 10, 20, 20, 20, 10, 10, 10, 20, 20, 20]
        [1, 1, 1, 1, 1, 1, 1, 1, 1, 1, 1, 1])
      [0, 0, 0, 1, 1, 1, 2, 2, 2, 3, 3, 3] 4
      [10, 10, 10, 20, 20, 20, 10, 10, 10, 20, 20, 20]
      [1, 1, 1, 1, 1, 1, 1, 1, 1, 1, 1, 1]
      3 (1/10000000) = ⟨some 0, [4]⟩ := by
  have hbest : MSEGain.Evaluate false
      [10, 10, 10, 20, 20, 20, 10, 10, 10, 20, 20, 20]
      [1, 1, 1, 1, 1, 1, 1, 1, 1, 1, 1, 1] = -25 := by
    norm_num [MSEGain.Evaluate, MSEGain.EvaluateRange, idx, Finset.sum_Icc_succ_top]
  rw [hbest]
  norm_num [allCategoricalSplitIfBetter, (show List.range 4 = [0, 1, 2, 3] from rfl),
    MSEGain.Evaluate, MSEGain.EvaluateRange, idx, Finset.sum_Icc_succ_top,
    List.filter_cons, decide_eq_true_eq]

/-- Claim C9: whenever the categorical split finder accepts a split it
writes exactly one element into the split-info output, whose value is
numCategories, and in particular on the data of the test
AllCategoricalSplitSimpleSplitTest (4 categories each holding three equal
responses, minLeafSize 3, MSE gain) it accepts with combined gain exactly
0 and reports exactly 4 children. -/
theorem categoricalSplit_acceptance (UseWeights : Bool)
    (eval : Bool → List ℚ → List ℚ → ℚ) (bestGain : ℚ) (values : List ℚ)
    (numCategories : ℕ) (responses weights : List ℚ) (minLeafSize : ℕ)
    (minGainSplit : ℚ) (g : ℚ)
    (hacc : (allCategoricalSplitIfBetter UseWeights eval bestGain values
      numCategories responses weights minLeafSize minGainSplit).gain = some g) :
    (allCategoricalSplitIfBetter UseWeights eval bestGain values numCategories
      responses weights minLeafSize minGainSplit).splitInfo =
        [(numCategories : ℚ)] ∧
    allCategoricalSplitIfBetter false (fun u r w' => MSEGain.Evaluate u r w')
      (MSEGain.Evaluate false
        [10, 10, 10, 20, 20, 20, 10, 10, 10, 20, 20, 20]
        [1, 1, 1, 1, 1, 1, 1, 1, 1, 1, 1, 1])
      [0, 0, 0, 1, 1, 1, 2, 2, 2, 3, 3, 3] 4
      [10, 10, 10, 20, 20, 20, 10, 10, 10, 20, 20, 20]
      [1, 1, 1, 1, 1, 1, 1, 1, 1, 1, 1, 1]
      3 (1/10000000) = ⟨some 0, [4]⟩ := by
  refine ⟨?_, catSplit_concrete⟩
  revert hacc
  simp only [allCategoricalSplitIfBetter]
  split_ifs <;> intro hacc <;> first | rfl | simp at hacc

/-- Claim C9 witness: the theorem applied to the data of the test
AllCategoricalSplitSimpleSplitTest, where the finder accepts with gain
0. -/
theorem categoricalSplit_acceptance_witness :
    (allCategoricalSplitIfBetter false (fun u r w' => MSEGain.Evaluate u r w')
      (MSEGain.Evaluate false
        [10, 10, 10, 20, 20, 20, 10, 10, 10, 20, 20, 20]
        [1, 1, 1, 1, 1, 1, 1, 1, 1, 1, 1, 1])
      [0, 0, 0, 1, 1, 1, 2, 2, 2, 3, 3, 3] 4
      [10, 10, 10, 20, 20, 20, 10, 10, 10, 20, 20, 20]
      [1, 1, 1, 1, 1, 1, 1, 1, 1, 1, 1, 1]
      3 (1/10000000)).splitInfo = [((4 : ℕ) : ℚ)] :=
  (categoricalSplit_acceptance false (fun u r w' => MSEGain.Evaluate u r w')
    (MSEGain.Evaluate false
      [10, 10, 10, 20, 20, 20, 10, 10, 10, 20, 20, 20]
      [1, 1, 1, 1, 1, 1, 1, 1, 1, 1, 1, 1])
    [0, 0, 0, 1, 1, 1, 2, 2, 2, 3, 3, 3] 4
    [10, 10, 10, 20, 20, 20, 10, 10, 10, 20, 20, 20]
    [1, 1, 1, 1, 1, 1, 1, 1, 1, 1, 1, 1]
    3 (1/10000000) 0 (by rw [catSplit_concrete])).1

/-- Claim C10: the unweighted variant of MSEGain::Evaluate and
MADGain::Evaluate never reads the weights argument: for any two weight
vectors whatsoever, the range form and the full-range form return the
same value. -/
theorem unweighted_ignores_weights (p w1 w2 : List ℚ) (s t : ℕ) :
    (MSEGain.EvaluateRange false p w1 s t = MSEGain.EvaluateRange false p w2 s t ∧
     MSEGain.Evaluate false p w1 = MSEGain.Evaluate false p w2) ∧
    (MADGain.EvaluateRange false p w1 s t = MADGain.EvaluateRange false p w2 s t ∧
     MADGain.Evaluate false p w1 = MADGain.Evaluate false p w2) :=
  ⟨⟨rfl, rfl⟩, ⟨rfl, rfl⟩⟩
